import Mathlib

/-!
Verification development for the sc2-waterfall build-order timer.

The build-schedule engine of the repository lives in
`build-advisor/src/BuildAdvisor.jsx` (the Phase-2 revision): time parsing
(`parseTimeSafe`), clock formatting (`formatTime`), document validation
(`validateBuild`), window derivation (`enrichedSteps`), the display projection
(`visibleSteps`) with its audio-cue condition, and the three document loaders
(`loadLocalBuild`, `loadFromFile`, `loadFromLink`).  Each JavaScript function is
embedded below as an executable Lean definition; JavaScript strings are modelled
as `String` / `List Char`, JSON values as the inductive `JsValue`, the special
`Infinity` end bound as `Option Int` (`none` = unbounded), and the relevant
React state as the explicit record `AppState`.
-/

namespace SC2Waterfall

/-- Whitespace characters stripped by the JavaScript `Number` string coercion
(the ASCII fragment; build-document components never contain exotic
whitespace). -/
def wsChar (c : Char) : Bool :=
  c = ' ' || c = '\t' || c = '\n' || c = '\r'

/-- Strip leading and trailing whitespace, as JS `Number` does before
parsing. -/
def trimChars (cs : List Char) : List Char :=
  ((cs.dropWhile wsChar).reverse.dropWhile wsChar).reverse

/-- Numeric value of a decimal digit character. -/
def charVal (c : Char) : Nat := c.toNat - 48

/-- Value of a list of decimal digit characters, most significant first. -/
def decDigitsVal (cs : List Char) : Nat :=
  cs.foldl (fun a c => a * 10 + charVal c) 0

/-- Parse a nonempty all-digit character list; `none` otherwise. -/
def digitsVal? (cs : List Char) : Option Nat :=
  if !cs.isEmpty && cs.all Char.isDigit then some (decDigitsVal cs) else none

/-- Model of the JavaScript `Number(string)` coercion on the fragment the
program exercises: optional sign followed by a decimal integer numeral, with
surrounding whitespace trimmed; the empty (trimmed) string coerces to 0;
anything else is NaN, rendered as `none`.  (Fractional, exponent, hex and
`Infinity` forms, which JS would also accept, do not occur in build-order
time fields and are folded into the NaN case.) -/
def jsNumber (s : List Char) : Option Int :=
  match trimChars s with
  | [] => some 0
  | c :: rest =>
    if c = '-' then (digitsVal? rest).map (fun v => -(v : Int))
    else if c = '+' then (digitsVal? rest).map (fun v => (v : Int))
    else (digitsVal? (c :: rest)).map (fun v => (v : Int))

/-- JS `Number(n) || 0`: NaN collapses to 0 (so do 0 and -0 themselves, with
the same value). -/
def numberOrZero (cs : List Char) : Int :=
  (jsNumber cs).getD 0

/-- Model of JavaScript `t.split(":")`: splits on every colon; the empty
string yields one empty segment (JS `[""]`). -/
def splitCharsOnColon : List Char → List (List Char)
  | [] => [[]]
  | c :: rest =>
    if c = ':' then [] :: splitCharsOnColon rest
    else
      match splitCharsOnColon rest with
      | [] => [[c]]
      | h :: t => (c :: h) :: t

/-- Source `parseTimeSafe`:
`if (!t || !t.includes(":")) return 0;` then
`const [m, s] = t.split(":").map(n => Number(n) || 0); return m * 60 + s;`.
A falsy string is exactly the empty string.  The one- and zero-segment match
arms are unreachable when the string contains a colon; JS would destructure
`undefined` there, which `Number(...) || 0` coerces to 0, as written. -/
def parseTimeSafe (t : String) : Int :=
  if t.data.isEmpty || !(t.data.contains ':') then 0
  else
    match (splitCharsOnColon t.data).map numberOrZero with
    | m :: s :: _ => m * 60 + s
    | [m] => m * 60
    | [] => 0

/-- Decimal digit character for `d ≤ 9` (larger inputs clamp to `'9'` and are
never produced). -/
def decDigit : Nat → Char
  | 0 => '0'
  | 1 => '1'
  | 2 => '2'
  | 3 => '3'
  | 4 => '4'
  | 5 => '5'
  | 6 => '6'
  | 7 => '7'
  | 8 => '8'
  | _ => '9'

/-- Auxiliary for `natToDecChars`: structural recursion on a fuel argument
that is kept at least as large as the number being printed (the fuel-exhausted
first arm is never reached then). -/
def natToDecCharsAux : Nat → Nat → List Char
  | 0, n => [decDigit n]
  | fuel + 1, n =>
    if n < 10 then [decDigit n]
    else natToDecCharsAux fuel (n / 10) ++ [decDigit (n % 10)]

/-- Decimal numeral of a natural number, as JS `String(n)` prints it. -/
def natToDecChars (n : Nat) : List Char :=
  natToDecCharsAux n n

/-- JS `String(s).padStart(2, "0")`. -/
def padStart2Zero (cs : List Char) : List Char :=
  List.replicate (2 - cs.length) '0' ++ cs

/-- Source `formatTime`:
`const m = Math.floor(seconds / 60); const s = seconds % 60;`
`return ` + template `${m}:${String(s).padStart(2, "0")}`.
The app only ever passes the natural-number tick counter, on which JS
`Math.floor (n/60)` and `%` agree with `Nat` division and remainder. -/
def formatTime (seconds : Nat) : String :=
  ⟨natToDecChars (seconds / 60) ++ ':' :: padStart2Zero (natToDecChars (seconds % 60))⟩

/-! ## JSON values and the document validator -/

/-- Untrusted JSON value, the input of `validateBuild` (what `res.json()` or
`JSON.parse` can produce).  Numbers are modelled as integers: no build
document carries a fractional `supply`, and the validator only inspects the
`typeof` of values. -/
inductive JsValue where
  | null : JsValue
  | bool : Bool → JsValue
  | num : Int → JsValue
  | str : String → JsValue
  | arr : List JsValue → JsValue
  | obj : List (String × JsValue) → JsValue

/-- Property access `v[key]`: `none` models the JS value `undefined`.
JSON object keys are unique, so first-match lookup is exact. -/
def getField (v : JsValue) (key : String) : Option JsValue :=
  match v with
  | .obj fields => (fields.find? (fun p => p.1 == key)).map (fun p => p.2)
  | _ => none

/-- JS falsiness of a JSON value (`null`, `false`, `0` and `""` are falsy). -/
def jsFalsy (v : JsValue) : Bool :=
  match v with
  | .null => true
  | .bool b => !b
  | .num n => n == 0
  | .str s => s.data.isEmpty
  | .arr _ => false
  | .obj _ => false

/-- JS `typeof v === "object"` (true for objects, arrays and `null`). -/
def typeofObject (v : JsValue) : Bool :=
  match v with
  | .null => true
  | .arr _ => true
  | .obj _ => true
  | _ => false

/-- JS `typeof x === "string"` for a property read (`none` is `undefined`). -/
def fieldIsString (x : Option JsValue) : Bool :=
  match x with
  | some (.str _) => true
  | _ => false

/-- JS `typeof x === "number"` for a property read. -/
def fieldIsNumber (x : Option JsValue) : Bool :=
  match x with
  | some (.num _) => true
  | _ => false

/-- JS `Array.isArray(x)` for a property read, returning the elements. -/
def fieldAsArray (x : Option JsValue) : Option (List JsValue) :=
  match x with
  | some (.arr xs) => some xs
  | _ => none

/-- Body of the `for (const step of json.steps)` loop of `validateBuild`:
`if (!step || typeof step !== "object") return false;` and the three
`typeof` checks on `step.time`, `step.supply`, `step.action`. -/
def validStep (step : JsValue) : Bool :=
  if jsFalsy step || !typeofObject step then false
  else if !fieldIsString (getField step "time") then false
  else if !fieldIsNumber (getField step "supply") then false
  else if !fieldIsString (getField step "action") then false
  else true

/-- Source `validateBuild`: the chain of early `return false` checks on the
document followed by the per-step loop; reaching the end returns `true`. -/
def validateBuild (json : JsValue) : Bool :=
  if jsFalsy json || !typeofObject json then false
  else if !fieldIsString (getField json "name") then false
  else if !fieldIsString (getField json "race") then false
  else
    match fieldAsArray (getField json "steps") with
    | none => false
    | some steps => steps.all validStep

/-- Index of the first step the validator loop rejects, if any.  The source
never computes this: it is used here only to talk about which step a given
rejection is caused by. -/
def firstInvalidStepIdx (steps : List JsValue) : Option Nat :=
  steps.findIdx? (fun s => !validStep s)

/-! ## Validated build steps and the schedule projector -/

/-- One entry of the `steps` array of a document that passed `validateBuild`:
`time`, `supply` and `action` then have the checked shapes.  The projector
(`enrichedSteps`/`visibleSteps`) only ever runs on such documents (the
default build, or a document `setBuild` stored after validation). -/
structure BuildStep where
  time : String
  supply : Int
  action : String
deriving DecidableEq, Repr

/-- A step together with its derived window, as built by `enrichedSteps`
(`{ ...step, start, end }`).  The unbounded `end = Infinity` of the last step
is modelled as `none`; the field is named `endTime` because `end` is reserved
in Lean. -/
structure EnrichedStep where
  time : String
  supply : Int
  action : String
  start : Int
  endTime : Option Int
deriving DecidableEq, Repr

/-- JS `seconds >= s.end` where `end` may be `Infinity` (`none`): a finite
clock value never reaches `Infinity`. -/
def timeReached (seconds : Int) (endTime : Option Int) : Bool :=
  match endTime with
  | some e => e ≤ seconds
  | none => false

/-- JS `seconds < s.end` where `end` may be `Infinity` (`none`). -/
def timeBefore (seconds : Int) (endTime : Option Int) : Bool :=
  match endTime with
  | some e => seconds < e
  | none => true

/-- JS `seconds === s.end` where `end` may be `Infinity` (`none`). -/
def timeAt (seconds : Int) (endTime : Option Int) : Bool :=
  match endTime with
  | some e => seconds == e
  | none => false

/-- Source `enrichedSteps`:
`build.steps.map((step, i) => { const start = parseTimeSafe(step.time);`
`const end = i < build.steps.length - 1 ? parseTimeSafe(build.steps[i+1].time) : Infinity;`
`return { ...step, start, end }; })`.
The guard `i < length - 1` holds exactly when the lookup `steps[i + 1]`
succeeds, which is how it is rendered here. -/
def enrichedSteps (steps : List BuildStep) : List EnrichedStep :=
  steps.mapIdx (fun i step =>
    { time := step.time
      supply := step.supply
      action := step.action
      start := parseTimeSafe step.time
      endTime :=
        match steps.get? (i + 1) with
        | some next => some (parseTimeSafe next.time)
        | none => none })

/-- Source `visibleSteps` (its pure projection; the audio side effect in the
middle of the memo body is modelled separately as `firesAt`):
`const done = enrichedSteps.filter(s => seconds >= s.end);`
`const lastDone = done.slice(-2);`
`const remaining = enrichedSteps.filter(s => seconds < s.end);`
`return [...lastDone, ...remaining];`
`done.slice(-2)` keeps the last `min 2 (length done)` elements, i.e. drops
`length done - 2`. -/
def visibleSteps (seconds : Int) (es : List EnrichedStep) : List EnrichedStep :=
  let done := es.filter (fun s => timeReached seconds s.endTime)
  let lastDone := done.drop (done.length - 2)
  let remaining := es.filter (fun s => timeBefore seconds s.endTime)
  lastDone ++ remaining

/-- The audio-cue condition inside the `visibleSteps` memo body:
`if (done.length > 0 && !muted) { const lastStep = done[done.length - 1];`
`if (audioRef.current && seconds === lastStep.end) audioRef.current.play(); }`
with the audio element assumed mounted (`audioRef.current` non-null); the
notification sound plays exactly when this returns `true`. -/
def firesAt (es : List EnrichedStep) (muted : Bool) (seconds : Int) : Bool :=
  match (es.filter (fun s => timeReached seconds s.endTime)).getLast? with
  | some lastStep => !muted && timeAt seconds lastStep.endTime
  | none => false

/-- Strict order on derived end bounds, with the unbounded end (`none`,
i.e. `Infinity`) above every finite bound. -/
def endLt (a b : Option Int) : Bool :=
  match a, b with
  | some x, some y => x < y
  | some _, none => true
  | none, _ => false

/-- The derived end bounds are strictly increasing along the list (adjacent
comparison); this is what well-ordered build documents satisfy and what the
specification's notification property implicitly assumes. -/
def endsStrictMono : List (Option Int) → Bool
  | [] => true
  | [_] => true
  | a :: b :: rest => endLt a b && endsStrictMono (b :: rest)

/-! ## Application state and the three document loaders -/

/-- The React state touched by the loaders: the current document (stored
as the raw accepted JSON, exactly what `setBuild` receives), the clock, the
running flag, the user-visible messages and the two selection inputs. -/
structure AppState where
  build : JsValue
  seconds : Int
  running : Bool
  errorMessage : String
  successMessage : String
  selectedBuild : String
  linkInput : String
  loadingLink : Bool

/-- Outcome of `fetch(...)` followed by `res.json()`, the asynchronous input
of `loadLocalBuild` and `loadFromLink`: the response was not ok, the body was
not JSON (carrying the thrown error's `message`), or a parsed value. -/
inductive FetchOutcome where
  | notOk : FetchOutcome
  | badJson : String → FetchOutcome
  | ok : JsValue → FetchOutcome

/-- Outcome of `JSON.parse(text)`: a thrown syntax error's `message`, or the
parsed value. -/
inductive ParseOutcome where
  | failed : String → ParseOutcome
  | parsed : JsValue → ParseOutcome

/-- A local file handed to `loadFromFile`: its name and the outcome of
`JSON.parse(await file.text())`. -/
structure FileData where
  name : String
  parsed : ParseOutcome

/-- JS `err.message || fallback`: an empty message string is falsy and is
replaced by the fallback. -/
def messageOr (msg fallback : String) : String :=
  if msg.data.isEmpty then fallback else msg

/-- Source `loadLocalBuild(buildId)` as a state transition, with the fetch
outcome as an explicit input: the `try` block sets `loadingLink`, clears both
messages, then either throws (`Build not found` when `!res.ok`, the JSON
error, or `Invalid build format` when validation fails) — in which case the
`catch` sets only `errorMessage` — or stores the document, resets the clock,
stops the timer and records the selection; `finally` clears `loadingLink`. -/
def loadLocalBuild (st : AppState) (buildId : String) (r : FetchOutcome) : AppState :=
  let st1 := { st with loadingLink := true, errorMessage := "", successMessage := "" }
  let st2 :=
    match r with
    | .notOk => { st1 with errorMessage := messageOr "Build not found" "Build not available locally." }
    | .badJson msg => { st1 with errorMessage := messageOr msg "Build not available locally." }
    | .ok json =>
      if validateBuild json then
        { st1 with build := json, seconds := 0, successMessage := "Build Loaded",
                   running := false, selectedBuild := buildId }
      else
        { st1 with errorMessage := messageOr "Invalid build format" "Build not available locally." }
  { st2 with loadingLink := false }

/-- Source `loadFromFile(file)` as a state transition (`file.type` is never
consulted; only the lower-cased extension is checked, then the parsed JSON is
validated).  Failures reach the `catch`, which sets only `errorMessage`. -/
def loadFromFile (st : AppState) (f : Option FileData) : AppState :=
  let st1 := { st with errorMessage := "", successMessage := "" }
  match f with
  | none => { st1 with errorMessage := messageOr "No file provided" "Invalid JSON file" }
  | some file =>
    if !(file.name.toLower.endsWith ".json") then
      { st1 with errorMessage := messageOr "Please drop a valid .json file" "Invalid JSON file" }
    else
      match file.parsed with
      | .failed msg => { st1 with errorMessage := messageOr msg "Invalid JSON file" }
      | .parsed json =>
        if validateBuild json then
          { st1 with build := json, successMessage := "Build Loaded", seconds := 0,
                     running := false }
        else
          { st1 with errorMessage := messageOr "Invalid build JSON schema" "Invalid JSON file" }

/-- Source `loadFromLink(url)` as a state transition.  The GitHub blob-URL
rewriting only changes which URL is fetched, not the state transition, so the
fetch outcome subsumes it; on success the link input is also cleared. -/
def loadFromLink (st : AppState) (r : FetchOutcome) : AppState :=
  let st1 := { st with loadingLink := true, errorMessage := "", successMessage := "" }
  let st2 :=
    match r with
    | .notOk => { st1 with errorMessage := messageOr "Fetch failed" "Unable to load build JSON from link." }
    | .badJson msg => { st1 with errorMessage := messageOr msg "Unable to load build JSON from link." }
    | .ok json =>
      if validateBuild json then
        { st1 with build := json, seconds := 0, successMessage := "Build Loaded",
                   running := false, linkInput := "" }
      else
        { st1 with errorMessage := messageOr "Invalid build format" "Unable to load build JSON from link." }
  { st2 with loadingLink := false }

/-! ## The specification's own formulations, for comparison with the source -/

/-- The split-once reading of `parseTime` stated by the specification:
minutes is the text before the FIRST colon, seconds is ALL the text after it,
each coerced independently (non-numeric to 0). -/
def parseTimeSplitOnce (t : String) : Int :=
  if t.data.isEmpty || !(t.data.contains ':') then 0
  else
    numberOrZero (t.data.takeWhile (fun c => c != ':')) * 60 +
      numberOrZero ((t.data.dropWhile (fun c => c != ':')).drop 1)

/-- The behaviour the source actually has: split on EVERY separator and
coerce the first two components (the JS array destructuring). -/
def parseTimeSplitAll (t : String) : Int :=
  if t.data.isEmpty || !(t.data.contains ':') then 0
  else
    numberOrZero ((splitCharsOnColon t.data).getD 0 []) * 60 +
      numberOrZero ((splitCharsOnColon t.data).getD 1 [])

/-- Null test on a JSON value. -/
def isNullV (v : JsValue) : Bool :=
  match v with
  | .null => true
  | _ => false

/-- The specification's "non-null structured value (object)". -/
def isNonNullObject (v : JsValue) : Bool :=
  typeofObject v && !isNullV v

/-- The specification's shape requirement on one step: a non-null object
whose `time` is text, `supply` is numeric and `action` is text. -/
def stepShapeOk (s : JsValue) : Bool :=
  isNonNullObject s && fieldIsString (getField s "time") &&
    fieldIsNumber (getField s "supply") && fieldIsString (getField s "action")

/-- The specification's characterisation of a valid document: a non-null
object whose `name` and `race` are text and whose `steps` is an ordered
sequence of well-shaped steps (any further keys unconstrained). -/
def validBuildSpec (j : JsValue) : Bool :=
  isNonNullObject j && fieldIsString (getField j "name") &&
    fieldIsString (getField j "race") &&
    (match fieldAsArray (getField j "steps") with
     | none => false
     | some steps => steps.all stepShapeOk)

/-! ## Concrete documents used as witnesses and counterexamples -/

/-- The three-step example document of the specification
(times `0:18`, `0:38`, `1:05`). -/
def demoSteps : List BuildStep :=
  [⟨"0:18", 14, "Supply Depot"⟩, ⟨"0:38", 16, "Barracks"⟩, ⟨"1:05", 19, "Refinery"⟩]

/-- A document with out-of-order timestamps, accepted by the permissive
validator: the derived ends are 5, 3 and unbounded. -/
def outOfOrderSteps : List BuildStep :=
  [⟨"0:00", 10, "A"⟩, ⟨"0:05", 11, "B"⟩, ⟨"0:03", 12, "C"⟩]

/-- A well-shaped step object. -/
def stepGood : JsValue :=
  .obj [("time", .str "0:10"), ("supply", .num 12), ("action", .str "Scout")]

/-- A step object missing its `time` field. -/
def stepBad : JsValue :=
  .obj [("supply", .num 12), ("action", .str "Scout")]

/-- A document whose first offending step is at index 0. -/
def docBadFirst : JsValue :=
  .obj [("name", .str "A"), ("race", .str "Terran"), ("steps", .arr [stepBad, stepGood])]

/-- A document whose first offending step is at index 1. -/
def docBadSecond : JsValue :=
  .obj [("name", .str "A"), ("race", .str "Terran"), ("steps", .arr [stepGood, stepBad])]

/-- A valid document. -/
def demoDoc : JsValue :=
  .obj [("name", .str "Sample"), ("race", .str "Terran"), ("steps", .arr [stepGood])]

/-- An application state holding a valid document with the clock running. -/
def demoState : AppState :=
  { build := demoDoc, seconds := 42, running := true, errorMessage := "",
    successMessage := "", selectedBuild := "", linkInput := "", loadingLink := false }

/-- A fetch-based load attempt fails: the response was not ok, the body was
not JSON, or the parsed document fails validation. -/
def fetchFails (r : FetchOutcome) : Prop :=
  r = .notOk ∨ (∃ m, r = .badJson m) ∨ ∃ j, r = .ok j ∧ validateBuild j = false

/-- A local-file load attempt fails: no file, a non-`.json` extension, a JSON
parse error, or a document that fails validation. -/
def fileLoadFails (f : Option FileData) : Prop :=
  f = none ∨
    ∃ fd, f = some fd ∧
      (fd.name.toLower.endsWith ".json" = false ∨
        (∃ m, fd.parsed = .failed m) ∨
        ∃ j, fd.parsed = .parsed j ∧ validateBuild j = false)

/-! ## Lemmas about the colon splitter -/

theorem splitCharsOnColon_ne_nil : ∀ cs : List Char, splitCharsOnColon cs ≠ []
  | [] => by simp [splitCharsOnColon]
  | c :: rest => by
    simp only [splitCharsOnColon]
    split
    · simp
    · split
      · simp
      · simp

theorem two_le_length_splitCharsOnColon :
    ∀ cs : List Char, cs.contains ':' = true → 2 ≤ (splitCharsOnColon cs).length := by
  intro cs
  induction cs with
  | nil => intro h; simp at h
  | cons c rest ih =>
    intro h
    by_cases hc : c = ':'
    · subst hc
      have hlen := List.length_pos.mpr (splitCharsOnColon_ne_nil rest)
      simp [splitCharsOnColon]
      omega
    · have hc' : (':' : Char) ≠ c := fun hh => hc hh.symm
      have hr : rest.contains ':' = true := by
        simpa [List.contains_cons, hc'] using h
      have h2 := ih hr
      simp only [splitCharsOnColon, if_neg hc]
      rcases hsp : splitCharsOnColon rest with _ | ⟨hd, tl⟩
      · exact absurd hsp (splitCharsOnColon_ne_nil rest)
      · rw [hsp] at h2
        simpa using h2

/-- Claim C9: the five `parseTime` examples the specification gives all hold
of the source `parseTimeSafe`. -/
theorem parseTime_examples :
    parseTimeSafe "0:38" = 38 ∧ parseTimeSafe "1:05" = 65 ∧ parseTimeSafe "" = 0 ∧
      parseTimeSafe "abc" = 0 ∧ parseTimeSafe "2:" = 120 := by
  decide

/-- Claim C4 as stated is false: `parseTimeSafe` splits on EVERY colon and
destructures the first two components, it does not split once on the first
colon.  On `"1:2:3"` the code computes `1*60 + 2 = 62`, while the claimed
split-once rule computes `1*60 + Number("2:3")||0 = 60`. -/
theorem parseTime_splitOnce_counterexample :
    parseTimeSafe "1:2:3" = 62 ∧ parseTimeSplitOnce "1:2:3" = 60 ∧
      parseTimeSafe "1:2:3" ≠ parseTimeSplitOnce "1:2:3" := by
  decide

/-- Claim C4 amended: for every string `t`, `parseTimeSafe` returns 0 when
`t` is empty or contains no colon; otherwise it splits `t` on every colon,
coerces the first two components independently to numbers (non-numeric
components coercing to 0) and returns `minutes * 60 + seconds`. -/
theorem parseTimeSafe_eq_splitAll (t : String) :
    parseTimeSafe t = parseTimeSplitAll t := by
  unfold parseTimeSafe parseTimeSplitAll
  by_cases hg : (t.data.isEmpty || !(t.data.contains ':')) = true
  · rw [if_pos hg, if_pos hg]
  · rw [if_neg hg, if_neg hg]
    have hcol : t.data.contains ':' = true := by
      cases hcontains : t.data.contains ':' with
      | false => exact absurd (by rw [hcontains]; simp) hg
      | true => rfl
    have h2 := two_le_length_splitCharsOnColon t.data hcol
    rcases hsp : splitCharsOnColon t.data with _ | ⟨m, _ | ⟨s, rest⟩⟩
    · exact absurd hsp (splitCharsOnColon_ne_nil _)
    · rw [hsp] at h2; simp at h2
    · rfl

/-! ## The display projection -/

/-- Claim C1: for every document and elapsed value, the display sequence is
the last two (fewer if fewer exist) of the steps whose end has been reached,
in original order, followed by the steps whose end has not been reached, in
original order; an empty step list yields an empty display sequence. -/
theorem visibleSteps_display (steps : List BuildStep) (t : Int) :
    visibleSteps t (enrichedSteps steps) =
      (((enrichedSteps steps).filter (fun s => timeReached t s.endTime)).reverse.take 2).reverse
        ++ (enrichedSteps steps).filter (fun s => timeBefore t s.endTime) ∧
    visibleSteps t (enrichedSteps ([] : List BuildStep)) = [] := by
  constructor
  · rw [← List.rtake_eq_reverse_take_reverse]
    rfl
  · rfl

/-- A step's end cannot both have been reached and still lie ahead. -/
theorem timeReached_and_timeBefore (t : Int) (e : Option Int) :
    (timeReached t e && timeBefore t e) = false := by
  cases e with
  | none => rfl
  | some v =>
    by_cases h : v ≤ t
    · simp [timeReached, timeBefore, h, show ¬(t < v) by omega]
    · simp [timeReached, timeBefore, h]

/-- The done-entry bound, for an arbitrary enriched list. -/
theorem length_filter_done_visible (es : List EnrichedStep) (t : Int) :
    ((visibleSteps t es).filter (fun s => timeReached t s.endTime)).length ≤ 2 := by
  simp only [visibleSteps, List.filter_append, List.length_append]
  have hB : List.filter (fun s => timeReached t s.endTime)
      (List.filter (fun s => timeBefore t s.endTime) es) = [] := by
    rw [List.filter_filter]
    exact List.filter_eq_nil_iff.mpr (fun a _ => by simp [timeReached_and_timeBefore])
  rw [hB]
  have hA := List.length_filter_le (fun s => timeReached t s.endTime)
      ((es.filter (fun s => timeReached t s.endTime)).drop
        ((es.filter (fun s => timeReached t s.endTime)).length - 2))
  have hD : ((es.filter (fun s => timeReached t s.endTime)).drop
        ((es.filter (fun s => timeReached t s.endTime)).length - 2)).length =
      (es.filter (fun s => timeReached t s.endTime)).length -
        ((es.filter (fun s => timeReached t s.endTime)).length - 2) := by
    rw [List.length_drop]
  simp only [List.length_nil]
  omega

/-- Claim C5: for every document and elapsed value, the display sequence
contains at most two entries classified as done (entries whose end satisfies
`elapsedSeconds >= end`). -/
theorem visibleSteps_at_most_two_done (steps : List BuildStep) (t : Int) :
    ((visibleSteps t (enrichedSteps steps)).filter
        (fun s => timeReached t s.endTime)).length ≤ 2 :=
  length_filter_done_visible (enrichedSteps steps) t

/-- Claim C3: for every document and step index, the derived window starts at
the step's own parsed time and ends at the next step's parsed time, or is
unbounded for the last step. -/
theorem enrichedSteps_windows (steps : List BuildStep) (i : Nat) (h : i < steps.length) :
    (enrichedSteps steps).get? i =
      some { time := (steps.get ⟨i, h⟩).time
             supply := (steps.get ⟨i, h⟩).supply
             action := (steps.get ⟨i, h⟩).action
             start := parseTimeSafe (steps.get ⟨i, h⟩).time
             endTime :=
               if h2 : i + 1 < steps.length
               then some (parseTimeSafe (steps.get ⟨i + 1, h2⟩).time)
               else none } := by
  unfold enrichedSteps
  rw [List.get?_eq_getElem?, List.getElem?_mapIdx, List.getElem?_eq_getElem h]
  simp only [Option.map_some', Option.some.injEq, List.get_eq_getElem]
  by_cases h2 : i + 1 < steps.length
  · rw [dif_pos h2, List.get?_eq_getElem?, List.getElem?_eq_getElem h2]
  · rw [dif_neg h2, List.get?_eq_getElem?, List.getElem?_eq_none (by omega)]

/-- Witness for C3 at the first step of the example document. -/
theorem enrichedSteps_windows_witness :
    (enrichedSteps demoSteps).get? 0 =
      some { time := "0:18", supply := 14, action := "Supply Depot",
             start := 18, endTime := some 38 } := by
  rw [enrichedSteps_windows demoSteps 0 (by decide)]
  decide

/-! ## The validator -/

/-- The validator's per-step guard chain agrees with the specification's
shape conjunction. -/
theorem validStep_eq_stepShapeOk : validStep = stepShapeOk := by
  funext s
  cases s with
  | null => rfl
  | bool b => cases b <;> rfl
  | num n => simp [validStep, stepShapeOk, isNonNullObject, isNullV, jsFalsy, typeofObject]
  | str s => simp [validStep, stepShapeOk, isNonNullObject, isNullV, jsFalsy, typeofObject]
  | arr xs => simp [validStep, stepShapeOk, isNonNullObject, isNullV, jsFalsy, typeofObject,
      getField, fieldIsString]
  | obj fs =>
    cases hA : fieldIsString (getField (JsValue.obj fs) "time") <;>
      cases hB : fieldIsNumber (getField (JsValue.obj fs) "supply") <;>
        cases hC : fieldIsString (getField (JsValue.obj fs) "action") <;>
          simp [validStep, stepShapeOk, isNonNullObject, isNullV, jsFalsy, typeofObject,
            hA, hB, hC]

/-- The whole validator agrees with the specification's characterisation. -/
theorem validateBuild_eq_validBuildSpec (j : JsValue) :
    validateBuild j = validBuildSpec j := by
  cases j with
  | null => rfl
  | bool b => cases b <;> rfl
  | num n => simp [validateBuild, validBuildSpec, isNonNullObject, isNullV, jsFalsy, typeofObject]
  | str s => simp [validateBuild, validBuildSpec, isNonNullObject, isNullV, jsFalsy, typeofObject]
  | arr xs => simp [validateBuild, validBuildSpec, isNonNullObject, isNullV, jsFalsy, typeofObject,
      getField, fieldIsString]
  | obj fs =>
    cases hA : fieldIsString (getField (JsValue.obj fs) "name") <;>
      cases hB : fieldIsString (getField (JsValue.obj fs) "race") <;>
        simp [validateBuild, validBuildSpec, isNonNullObject, isNullV, jsFalsy, typeofObject,
          hA, hB, validStep_eq_stepShapeOk]

/-- Adding a field under an unrelated key does not change a property read. -/
theorem getField_cons_ne (fs : List (String × JsValue)) (k key : String) (v : JsValue)
    (h : k ≠ key) :
    getField (.obj ((k, v) :: fs)) key = getField (.obj fs) key := by
  simp only [getField]
  rw [List.find?_cons_of_neg]
  simp [h]

/-- Claim C2: `validateBuild` succeeds exactly on non-null objects with a
string `name`, a string `race` and a `steps` array of non-null objects with
string `time`, numeric `supply` and string `action`; and unknown extra keys,
at document or step level, never change the verdict. -/
theorem validateBuild_characterisation :
    (∀ j : JsValue, validateBuild j = true ↔ validBuildSpec j = true) ∧
    (∀ (fs : List (String × JsValue)) (k : String) (v : JsValue),
        k ≠ "name" → k ≠ "race" → k ≠ "steps" →
        validateBuild (.obj ((k, v) :: fs)) = validateBuild (.obj fs)) ∧
    (∀ (fs : List (String × JsValue)) (k : String) (v : JsValue),
        k ≠ "time" → k ≠ "supply" → k ≠ "action" →
        validStep (.obj ((k, v) :: fs)) = validStep (.obj fs)) := by
  refine ⟨fun j => by rw [validateBuild_eq_validBuildSpec], ?_, ?_⟩
  · intro fs k v h1 h2 h3
    simp only [validateBuild, getField_cons_ne fs k "name" v h1,
      getField_cons_ne fs k "race" v h2, getField_cons_ne fs k "steps" v h3,
      jsFalsy, typeofObject]
  · intro fs k v h1 h2 h3
    simp only [validStep, getField_cons_ne fs k "time" v h1,
      getField_cons_ne fs k "supply" v h2, getField_cons_ne fs k "action" v h3,
      jsFalsy, typeofObject]

/-- Witness for C2: an unrecognised extra key on a valid document leaves the
verdict unchanged. -/
theorem validateBuild_characterisation_witness :
    validateBuild (.obj (("extra", .num 1) ::
        [("name", .str "Sample"), ("race", .str "Terran"), ("steps", .arr [stepGood])])) =
      validateBuild (.obj
        [("name", .str "Sample"), ("race", .str "Terran"), ("steps", .arr [stepGood])]) :=
  validateBuild_characterisation.2.1
    [("name", .str "Sample"), ("race", .str "Terran"), ("steps", .arr [stepGood])]
    "extra" (.num 1) (by decide) (by decide) (by decide)

/-- Claim C8 fails as stated: the validator's result is a bare boolean.  Two
documents whose first offending steps sit at different indexes (0 and 1)
produce the identical result `false`, so the failure cannot identify the
index of the first offending step. -/
theorem validateBuild_no_index_counterexample :
    validateBuild docBadFirst = false ∧ validateBuild docBadSecond = false ∧
      validateBuild docBadFirst = validateBuild docBadSecond ∧
      firstInvalidStepIdx [stepBad, stepGood] = some 0 ∧
      firstInvalidStepIdx [stepGood, stepBad] = some 1 := by
  decide

/-- Claim C8 amended: whenever some step of the `steps` array lacks
`time`/`supply`/`action` with the right shape, `validateBuild` rejects the
document (returns `false`); the boolean result carries no information about
which step offended. -/
theorem validateBuild_rejects_bad_step (j : JsValue) (steps : List JsValue)
    (hsteps : fieldAsArray (getField j "steps") = some steps)
    (hbad : ∃ s ∈ steps, validStep s = false) :
    validateBuild j = false := by
  obtain ⟨s, hs, hfail⟩ := hbad
  unfold validateBuild
  split
  · rfl
  · split
    · rfl
    · split
      · rfl
      · rw [hsteps]
        exact List.all_eq_false.mpr ⟨s, hs, by simp [hfail]⟩

/-- Witness for the amended C8 at a concrete offending document. -/
theorem validateBuild_rejects_bad_step_witness :
    validateBuild docBadFirst = false :=
  validateBuild_rejects_bad_step docBadFirst [stepBad, stepGood] rfl
    ⟨stepBad, List.mem_cons_self _ _, by decide⟩

/-! ## The document loaders -/

/-- The surfaced message `err.message || fallback` is never empty when the
fallback is not. -/
theorem messageOr_ne_empty (m fb : String) (hfb : fb ≠ "") : messageOr m fb ≠ "" := by
  unfold messageOr
  by_cases h : m.data.isEmpty = true
  · rw [if_pos h]; exact hfb
  · rw [if_neg h]
    intro hm
    subst hm
    exact h rfl

/-- Claim C7: every failing load attempt — registry selection
(`loadLocalBuild`), local file (`loadFromFile`) or URL fetch
(`loadFromLink`); failing by fetch error, JSON parse error, bad extension or
validation rejection — leaves the active document, the elapsed-seconds
clock and the running flag unchanged, and surfaces a nonempty error
message.  In particular, loading an invalid document after a valid one
leaves the valid one active. -/
theorem load_failure_preserves_state :
    (∀ (st : AppState) (id : String) (r : FetchOutcome), fetchFails r →
        (loadLocalBuild st id r).build = st.build ∧
        (loadLocalBuild st id r).seconds = st.seconds ∧
        (loadLocalBuild st id r).running = st.running ∧
        (loadLocalBuild st id r).errorMessage ≠ "") ∧
    (∀ (st : AppState) (f : Option FileData), fileLoadFails f →
        (loadFromFile st f).build = st.build ∧
        (loadFromFile st f).seconds = st.seconds ∧
        (loadFromFile st f).running = st.running ∧
        (loadFromFile st f).errorMessage ≠ "") ∧
    (∀ (st : AppState) (r : FetchOutcome), fetchFails r →
        (loadFromLink st r).build = st.build ∧
        (loadFromLink st r).seconds = st.seconds ∧
        (loadFromLink st r).running = st.running ∧
        (loadFromLink st r).errorMessage ≠ "") := by
  refine ⟨?_, ?_, ?_⟩
  · intro st id r hr
    rcases hr with rfl | ⟨m, rfl⟩ | ⟨j, rfl, hv⟩
    · refine ⟨?_, ?_, ?_, ?_⟩ <;> simp [loadLocalBuild]
      exact messageOr_ne_empty _ _ (by decide)
    · refine ⟨?_, ?_, ?_, ?_⟩ <;> simp [loadLocalBuild]
      exact messageOr_ne_empty _ _ (by decide)
    · refine ⟨?_, ?_, ?_, ?_⟩ <;> simp [loadLocalBuild, hv]
      exact messageOr_ne_empty _ _ (by decide)
  · intro st f hf
    rcases hf with rfl | ⟨fd, rfl, hcase⟩
    · refine ⟨?_, ?_, ?_, ?_⟩ <;> simp [loadFromFile]
      exact messageOr_ne_empty _ _ (by decide)
    · rcases hcase with hext | ⟨m, hparse⟩ | ⟨j, hparse, hv⟩
      · refine ⟨?_, ?_, ?_, ?_⟩ <;> simp [loadFromFile, hext]
        exact messageOr_ne_empty _ _ (by decide)
      · by_cases hext : fd.name.toLower.endsWith ".json" = true
        · refine ⟨?_, ?_, ?_, ?_⟩ <;> simp [loadFromFile, hext, hparse]
          exact messageOr_ne_empty _ _ (by decide)
        · refine ⟨?_, ?_, ?_, ?_⟩ <;> simp [loadFromFile, Bool.eq_false_iff.mpr hext]
          exact messageOr_ne_empty _ _ (by decide)
      · by_cases hext : fd.name.toLower.endsWith ".json" = true
        · refine ⟨?_, ?_, ?_, ?_⟩ <;> simp [loadFromFile, hext, hparse, hv]
          exact messageOr_ne_empty _ _ (by decide)
        · refine ⟨?_, ?_, ?_, ?_⟩ <;> simp [loadFromFile, Bool.eq_false_iff.mpr hext]
          exact messageOr_ne_empty _ _ (by decide)
  · intro st r hr
    rcases hr with rfl | ⟨m, rfl⟩ | ⟨j, rfl, hv⟩
    · refine ⟨?_, ?_, ?_, ?_⟩ <;> simp [loadFromLink]
      exact messageOr_ne_empty _ _ (by decide)
    · refine ⟨?_, ?_, ?_, ?_⟩ <;> simp [loadFromLink]
      exact messageOr_ne_empty _ _ (by decide)
    · refine ⟨?_, ?_, ?_, ?_⟩ <;> simp [loadFromLink, hv]
      exact messageOr_ne_empty _ _ (by decide)

/-- Witness for C7: loading an invalid document (a bare number) over the
valid running `demoState` changes neither document, clock nor running flag,
and surfaces an error. -/
theorem load_failure_preserves_state_witness :
    (loadLocalBuild demoState "x" (.ok (.num 3))).build = demoState.build ∧
      (loadLocalBuild demoState "x" (.ok (.num 3))).seconds = demoState.seconds ∧
      (loadLocalBuild demoState "x" (.ok (.num 3))).running = demoState.running ∧
      (loadLocalBuild demoState "x" (.ok (.num 3))).errorMessage ≠ "" :=
  load_failure_preserves_state.1 demoState "x" (.ok (.num 3))
    (Or.inr (Or.inr ⟨.num 3, rfl, rfl⟩))

/-! ## The notification condition -/

theorem endLt_trans (a b c : Option Int) (h1 : endLt a b = true) (h2 : endLt b c = true) :
    endLt a c = true := by
  cases a <;> cases b <;> cases c <;> simp [endLt] at * <;> omega

theorem endsStrictMono_tail (x : Option Int) (l : List (Option Int))
    (h : endsStrictMono (x :: l) = true) : endsStrictMono l = true := by
  cases l with
  | nil => rfl
  | cons b r =>
    have h' : endLt x b = true ∧ endsStrictMono (b :: r) = true := by
      simpa [endsStrictMono] using h
    exact h'.2

theorem endsStrictMono_head :
    ∀ (l : List (Option Int)) (x : Option Int), endsStrictMono (x :: l) = true →
      ∀ y ∈ l, endLt x y = true := by
  intro l
  induction l with
  | nil =>
    intro x h y hy
    cases hy
  | cons b r ih =>
    intro x h y hy
    have h1 : endLt x b = true ∧ endsStrictMono (b :: r) = true := by
      simpa [endsStrictMono] using h
    rcases List.mem_cons.mp hy with rfl | hy'
    · exact h1.1
    · exact endLt_trans x b y h1.1 (ih b h1.2 y hy')

/-- With strictly increasing ends, the last completed step at the tick of a
step's finite boundary is that very step. -/
theorem getLast?_filter_done :
    ∀ (es : List EnrichedStep) (t : Int),
      endsStrictMono (es.map EnrichedStep.endTime) = true →
      ∀ s ∈ es, s.endTime = some t →
      ∃ last, (es.filter (fun x => timeReached t x.endTime)).getLast? = some last ∧
        last.endTime = some t := by
  intro es t
  induction es with
  | nil =>
    intro _ s hs
    cases hs
  | cons a rest ih =>
    intro hmono s hs hend
    rw [List.map_cons] at hmono
    have htail : endsStrictMono (rest.map EnrichedStep.endTime) = true :=
      endsStrictMono_tail _ _ hmono
    rcases List.mem_cons.mp hs with rfl | hs'
    · have ha : timeReached t s.endTime = true := by
        rw [hend]; simp [timeReached]
      have hrestnil : rest.filter (fun x => timeReached t x.endTime) = [] := by
        apply List.filter_eq_nil_iff.mpr
        intro y hy
        have hlt : endLt s.endTime y.endTime = true :=
          endsStrictMono_head _ _ hmono y.endTime (List.mem_map_of_mem _ hy)
        rw [hend] at hlt
        cases hey : y.endTime with
        | none => simp [timeReached]
        | some v =>
          rw [hey] at hlt
          simp only [endLt, decide_eq_true_eq] at hlt
          simp [timeReached]
          omega
      have hfs : List.filter (fun x => timeReached t x.endTime) (s :: rest) = [s] := by
        rw [List.filter_cons, if_pos ha, hrestnil]
      rw [hfs]
      exact ⟨s, rfl, hend⟩
    · obtain ⟨last, hlast, hlend⟩ := ih htail s hs' hend
      by_cases hpa : timeReached t a.endTime = true
      · have hfa : List.filter (fun x => timeReached t x.endTime) (a :: rest) =
            a :: List.filter (fun x => timeReached t x.endTime) rest := by
          rw [List.filter_cons, if_pos hpa]
        rw [hfa]
        rcases hfr : rest.filter (fun x => timeReached t x.endTime) with _ | ⟨b, l'⟩
        · rw [hfr] at hlast
          cases hlast
        · rw [hfr] at hlast
          refine ⟨last, ?_, hlend⟩
          rw [hfr, List.getLast?_cons_cons]
          exact hlast
      · have hfa : List.filter (fun x => timeReached t x.endTime) (a :: rest) =
            List.filter (fun x => timeReached t x.endTime) rest := by
          rw [List.filter_cons, if_neg hpa]
        rw [hfa]
        exact ⟨last, hlast, hlend⟩

/-- A fire can only happen at a value that is one of the derived ends. -/
theorem firesAt_mem (es : List EnrichedStep) (t : Int) (h : firesAt es false t = true) :
    some t ∈ es.map EnrichedStep.endTime := by
  simp only [firesAt] at h
  rcases hlast : (es.filter (fun s => timeReached t s.endTime)).getLast? with _ | last
  · rw [hlast] at h
    cases h
  · rw [hlast] at h
    have h' : timeAt t last.endTime = true := by simpa using h
    have hmemf : last ∈ es.filter (fun s => timeReached t s.endTime) :=
      List.mem_of_getLast?_eq_some hlast
    have hmem : last ∈ es := List.mem_of_mem_filter hmemf
    have ht : last.endTime = some t := by
      cases he : last.endTime with
      | none => rw [he] at h'; simp [timeAt] at h'
      | some v =>
        rw [he] at h'
        have hv : t = v := by simpa [timeAt] using h'
        rw [hv]
    rw [← ht]
    exact List.mem_map_of_mem _ hmem

/-- Claim C6 amended: on documents whose derived end boundaries are strictly
increasing, the (unmuted) completion cue condition holds at elapsed `t`
exactly when `t` is one of the steps' finite end boundaries.  Hence each such
boundary fires at the single tick equal to it — being a pure function of the
elapsed value, re-evaluation at the same tick yields the same single
boundary, and a boundary lying before the at-load clock value 0 (a negative
end) is never fired after a load, since ticks only take values 0, 1, 2, …. -/
theorem firesAt_iff_boundary (steps : List BuildStep) (t : Int)
    (hmono : endsStrictMono ((enrichedSteps steps).map EnrichedStep.endTime) = true) :
    firesAt (enrichedSteps steps) false t = true ↔
      some t ∈ (enrichedSteps steps).map EnrichedStep.endTime := by
  constructor
  · exact firesAt_mem (enrichedSteps steps) t
  · intro hmem
    obtain ⟨s, hs, hsend⟩ := List.mem_map.mp hmem
    obtain ⟨last, hlast, hlend⟩ := getLast?_filter_done (enrichedSteps steps) t hmono s hs hsend
    simp only [firesAt]
    rw [hlast]
    simp [timeAt, hlend]

/-- Witness for the amended C6: on the example document (strictly increasing
boundaries 38, 65, unbounded) the cue fires at tick 38. -/
theorem firesAt_iff_boundary_witness :
    firesAt (enrichedSteps demoSteps) false 38 = true :=
  (firesAt_iff_boundary demoSteps 38 (by decide)).mpr (by decide)

/-- Claim C6 as stated is false: on a document with out-of-order timestamps
(derived ends 5, 3, unbounded), the first step's end boundary 5 is reached at
tick 5, yet the cue condition is false there (the last completed step at tick
5 is the second one, whose end is 3), so that step's completion never
fires. -/
theorem notification_misses_boundary_counterexample :
    ((enrichedSteps outOfOrderSteps).map EnrichedStep.endTime).get? 0 = some (some 5) ∧
      firesAt (enrichedSteps outOfOrderSteps) false 5 = false := by
  decide

/-! ## The format/parse round trip -/

theorem decDigit_isDigit (d : Nat) : (decDigit d).isDigit = true := by
  unfold decDigit
  split <;> decide

theorem isDigit_ne_colon (c : Char) (h : c.isDigit = true) : c ≠ ':' := by
  intro he
  rw [he] at h
  exact absurd h (by decide)

theorem isDigit_not_ws (c : Char) (h : c.isDigit = true) : wsChar c = false := by
  cases hw : wsChar c with
  | false => rfl
  | true =>
    exfalso
    simp only [wsChar, Bool.or_eq_true, decide_eq_true_eq] at hw
    rcases hw with ((h1 | h1) | h1) | h1 <;> (rw [h1] at h; exact absurd h (by decide))

theorem charVal_decDigit (d : Nat) (h : d < 10) : charVal (decDigit d) = d := by
  interval_cases d <;> decide

theorem decDigitsVal_append_digit (xs : List Char) (c : Char) :
    decDigitsVal (xs ++ [c]) = 10 * decDigitsVal xs + charVal c := by
  unfold decDigitsVal
  rw [List.foldl_append]
  simp only [List.foldl_cons, List.foldl_nil]
  omega

theorem natToDecCharsAux_spec :
    ∀ (fuel n : Nat), n ≤ fuel →
      (∀ c ∈ natToDecCharsAux fuel n, c.isDigit = true) ∧
      decDigitsVal (natToDecCharsAux fuel n) = n ∧ natToDecCharsAux fuel n ≠ [] := by
  intro fuel
  induction fuel with
  | zero =>
    intro n hn
    have hn0 : n = 0 := by omega
    subst hn0
    refine ⟨?_, by decide, by decide⟩
    intro c hc
    simp only [natToDecCharsAux] at hc
    rw [List.mem_singleton.mp hc]
    decide
  | succ fuel ih =>
    intro n hn
    by_cases h10 : n < 10
    · refine ⟨?_, ?_, ?_⟩
      · intro c hc
        simp only [natToDecCharsAux, if_pos h10] at hc
        rw [List.mem_singleton.mp hc]
        exact decDigit_isDigit n
      · simp only [natToDecCharsAux, if_pos h10]
        show 0 * 10 + charVal (decDigit n) = n
        rw [charVal_decDigit n h10]
        omega
      · simp [natToDecCharsAux, if_pos h10]
    · have hdivle : n / 10 ≤ fuel := by
        have hlt : n / 10 < n := Nat.div_lt_self (by omega) (by omega)
        omega
      obtain ⟨ihd, ihv, ihne⟩ := ih (n / 10) hdivle
      refine ⟨?_, ?_, ?_⟩
      · intro c hc
        simp only [natToDecCharsAux, if_neg h10] at hc
        rcases List.mem_append.mp hc with hc1 | hc1
        · exact ihd c hc1
        · rw [List.mem_singleton.mp hc1]
          exact decDigit_isDigit _
      · simp only [natToDecCharsAux, if_neg h10]
        rw [decDigitsVal_append_digit, ihv, charVal_decDigit (n % 10) (by omega)]
        omega
      · simp only [natToDecCharsAux, if_neg h10]
        intro happ
        rcases List.append_eq_nil.mp happ with ⟨_, h2⟩
        simp at h2

theorem natToDecChars_spec (n : Nat) :
    (∀ c ∈ natToDecChars n, c.isDigit = true) ∧
      decDigitsVal (natToDecChars n) = n ∧ natToDecChars n ≠ [] :=
  natToDecCharsAux_spec n n (Nat.le_refl n)

theorem dropWhile_ws_of_digits (cs : List Char) (h : ∀ c ∈ cs, c.isDigit = true) :
    cs.dropWhile wsChar = cs := by
  cases cs with
  | nil => rfl
  | cons a l =>
    have hws : wsChar a = false := isDigit_not_ws a (h a (List.mem_cons_self _ _))
    rw [List.dropWhile_cons, if_neg (by simp [hws])]

theorem trimChars_of_digits (cs : List Char) (h : ∀ c ∈ cs, c.isDigit = true) :
    trimChars cs = cs := by
  unfold trimChars
  rw [dropWhile_ws_of_digits cs h,
    dropWhile_ws_of_digits cs.reverse (fun c hc => h c (List.mem_reverse.mp hc)),
    List.reverse_reverse]

theorem jsNumber_digits (cs : List Char) (hne : cs ≠ []) (h : ∀ c ∈ cs, c.isDigit = true) :
    jsNumber cs = some ((decDigitsVal cs : Int)) := by
  cases cs with
  | nil => exact absurd rfl hne
  | cons c rest =>
    have hc : c.isDigit = true := h c (List.mem_cons_self _ _)
    have hcm : ¬(c = '-') := by
      intro he; rw [he] at hc; exact absurd hc (by decide)
    have hcp : ¬(c = '+') := by
      intro he; rw [he] at hc; exact absurd hc (by decide)
    have hall : ((c :: rest).all Char.isDigit) = true := List.all_eq_true.mpr h
    simp only [jsNumber, trimChars_of_digits (c :: rest) h]
    rw [if_neg hcm, if_neg hcp]
    unfold digitsVal?
    rw [if_pos (by simp [hall])]
    rfl

theorem numberOrZero_digits (cs : List Char) (hne : cs ≠ [])
    (h : ∀ c ∈ cs, c.isDigit = true) :
    numberOrZero cs = (decDigitsVal cs : Int) := by
  unfold numberOrZero
  rw [jsNumber_digits cs hne h]
  rfl

theorem padStart2Zero_digits (cs : List Char) (h : ∀ c ∈ cs, c.isDigit = true) :
    ∀ c ∈ padStart2Zero cs, c.isDigit = true := by
  intro c hc
  rcases List.mem_append.mp hc with hc1 | hc1
  · rw [List.eq_of_mem_replicate hc1]
    decide
  · exact h c hc1

theorem foldl_val_zeros (k : Nat) :
    List.foldl (fun a c => a * 10 + charVal c) 0 (List.replicate k '0') = 0 := by
  induction k with
  | zero => rfl
  | succ k ih =>
    have h0 : ((0 * 10 + charVal '0' : Nat)) = 0 := by decide
    simp only [List.replicate_succ, List.foldl_cons]
    rw [h0]
    exact ih

theorem decDigitsVal_padStart2Zero (cs : List Char) :
    decDigitsVal (padStart2Zero cs) = decDigitsVal cs := by
  unfold padStart2Zero decDigitsVal
  rw [List.foldl_append, foldl_val_zeros]

theorem splitCharsOnColon_append (a b : List Char) (ha : ∀ c ∈ a, c ≠ ':') :
    splitCharsOnColon (a ++ ':' :: b) = a :: splitCharsOnColon b := by
  induction a with
  | nil => simp [splitCharsOnColon]
  | cons x a' ih =>
    have hx : x ≠ ':' := ha x (List.mem_cons_self _ _)
    have ih' := ih (fun c hc => ha c (List.mem_cons_of_mem _ hc))
    simp only [List.cons_append, splitCharsOnColon, List.append_eq, if_neg hx, ih']

theorem splitCharsOnColon_no_colon (b : List Char) (hb : ∀ c ∈ b, c ≠ ':') :
    splitCharsOnColon b = [b] := by
  induction b with
  | nil => rfl
  | cons x b' ih =>
    have hx : x ≠ ':' := hb x (List.mem_cons_self _ _)
    have ih' := ih (fun c hc => hb c (List.mem_cons_of_mem _ hc))
    simp only [splitCharsOnColon, if_neg hx, ih']

theorem contains_append_colon (a b : List Char) :
    (a ++ ':' :: b).contains ':' = true :=
  List.elem_iff.mpr (List.mem_append_right a (List.mem_cons_self _ _))

/-- Claim C10: formatting any natural number of seconds as `m:ss` (minutes,
colon, zero-padded seconds) and re-parsing recovers exactly that number. -/
theorem parseTime_formatTime_roundTrip (n : Nat) :
    parseTimeSafe (formatTime n) = (n : Int) := by
  obtain ⟨hAdig, hAval, hAne⟩ := natToDecChars_spec (n / 60)
  obtain ⟨hBdig0, hBval0, hBne0⟩ := natToDecChars_spec (n % 60)
  have hBdig : ∀ c ∈ padStart2Zero (natToDecChars (n % 60)), c.isDigit = true :=
    padStart2Zero_digits _ hBdig0
  have hBval : decDigitsVal (padStart2Zero (natToDecChars (n % 60))) = n % 60 := by
    rw [decDigitsVal_padStart2Zero, hBval0]
  have hBne : padStart2Zero (natToDecChars (n % 60)) ≠ [] := by
    unfold padStart2Zero
    intro happ
    rcases List.append_eq_nil.mp happ with ⟨_, h2⟩
    exact hBne0 h2
  have hAcol : ∀ c ∈ natToDecChars (n / 60), c ≠ ':' :=
    fun c hc => isDigit_ne_colon c (hAdig c hc)
  have hBcol : ∀ c ∈ padStart2Zero (natToDecChars (n % 60)), c ≠ ':' :=
    fun c hc => isDigit_ne_colon c (hBdig c hc)
  have hdata : (formatTime n).data =
      natToDecChars (n / 60) ++ ':' :: padStart2Zero (natToDecChars (n % 60)) := rfl
  have hempty : (natToDecChars (n / 60) ++
      ':' :: padStart2Zero (natToDecChars (n % 60))).isEmpty = false := by
    cases hA2 : natToDecChars (n / 60) with
    | nil => exact absurd hA2 hAne
    | cons x xs => rfl
  have hcont := contains_append_colon (natToDecChars (n / 60))
      (padStart2Zero (natToDecChars (n % 60)))
  unfold parseTimeSafe
  rw [hdata]
  rw [if_neg (by simp [hempty, hcont])]
  rw [splitCharsOnColon_append _ _ hAcol,
    splitCharsOnColon_no_colon _ hBcol]
  show numberOrZero (natToDecChars (n / 60)) * 60 +
      numberOrZero (padStart2Zero (natToDecChars (n % 60))) = (n : Int)
  rw [numberOrZero_digits _ hAne hAdig, numberOrZero_digits _ hBne hBdig, hAval, hBval]
  omega

end SC2Waterfall
